import Mathlib

/-!
Verification of `scripts/add_copyright.py`.

The script scans a directory tree for `.swift` files and inserts or updates a
copyright header comment at the top of each file.  We embed its text
manipulation shallowly: file contents are `List Char`, and Python's
`str.splitlines` / `"\n".join` are modelled over the `'\n'` terminator
(the repository's files use plain newlines; the script itself only ever
writes `'\n'`).  Python's `str.strip` is modelled over the common ASCII
whitespace characters via `Char.isWhitespace`.
-/

namespace AddCopyright

/-- The newline character. -/
def nl : Char := '\n'

/-- The byte-order marker code point U+FEFF, written `"\uFEFF"` in the script. -/
def bomChar : Char := '\uFEFF'

/-- Constant `COPYRIGHT_BASE_YEAR = 2024` from the script. -/
def COPYRIGHT_BASE_YEAR : Nat := 2024

/-- Constant `COPYRIGHT_HOLDER = "Yuze Pan"` from the script. -/
def COPYRIGHT_HOLDER : List Char := "Yuze Pan".toList

/-- Constant `COPYRIGHT_SUFFIX` from the script. -/
def COPYRIGHT_SUFFIX : List Char := "保留一切权利。".toList

/-- The marker the script looks for at the start of a stripped first line
(line 45 of the script). -/
def copyrightMarker : List Char := "// Copyright ©".toList

/-- `current_header_line()`: the header computed from the base year, the
current year, the holder and the suffix, following the f-strings on
lines 18-20 of the script. -/
def current_header_line (year : Nat) : List Char :=
  "// Copyright © ".toList ++ (Nat.repr COPYRIGHT_BASE_YEAR).toList ++ "–".toList ++
    (Nat.repr year).toList ++ " ".toList ++ COPYRIGHT_HOLDER ++ ". ".toList ++ COPYRIGHT_SUFFIX

/-- Python `str.strip()`: drop whitespace from both ends. -/
def strip (s : List Char) : List Char :=
  ((s.dropWhile Char.isWhitespace).reverse.dropWhile Char.isWhitespace).reverse

/-- Python `str.splitlines()` over the `'\n'` terminator: the final line has
no terminator, and a trailing newline produces no extra empty line. -/
def splitlines : List Char → List (List Char)
  | [] => []
  | c :: cs =>
    if c = nl then [] :: splitlines cs
    else
      match splitlines cs with
      | [] => [[c]]
      | l :: ls => (c :: l) :: ls

/-- Python `"\n".join(lines)`. -/
def joinNl : List (List Char) → List Char
  | [] => []
  | [l] => l
  | l :: l2 :: ls => l ++ nl :: joinNl (l2 :: ls)

/-- Python `text.endswith("\n")`. -/
def endsNl (s : List Char) : Bool := decide (s.getLast? = some nl)

/-- Python `text.startswith(BOM)`. -/
def startsBom (s : List Char) : Bool := decide (s.head? = some bomChar)

/-- The `bom` variable of `ensure_header`: the leading byte-order marker, if any. -/
def bomOf (s : List Char) : List Char := if startsBom s then [bomChar] else []

/-- The `text` variable of `ensure_header` after the BOM was peeled off. -/
def stripBom (s : List Char) : List Char := if startsBom s then s.tail else s

/-- Python `sub in s`: substring containment. -/
def containsSub (sub : List Char) : List Char → Bool
  | [] => sub.isPrefixOf []
  | c :: cs => sub.isPrefixOf (c :: cs) || containsSub sub cs

/-- The test on the first line from line 45 of the script:
`lines[0].strip().startswith("// Copyright ©") and COPYRIGHT_HOLDER in lines[0]`. -/
def isHeaderLine (l : List Char) : Bool :=
  copyrightMarker.isPrefixOf (strip l) && containsSub COPYRIGHT_HOLDER l

/-- Whether the guard of line 45 holds for a (BOM-stripped) file content:
there is a first line and it passes `isHeaderLine`. -/
def hasHeader (t : List Char) : Bool :=
  match splitlines t with
  | [] => false
  | l0 :: _ => isHeaderLine l0

/-- `ensure_header(path, header)` (lines 37-57 of the script), as a pure map
from the file's current content to its new content together with the
`changed` field of the returned `FileResult`.  When `changed` is `false`
the script does not write, so the content component is the input itself. -/
def ensure_header (header text : List Char) : List Char × Bool :=
  match splitlines (stripBom text) with
  | [] => (bomOf text ++ header ++ nl :: nl :: stripBom text, true)
  | l0 :: rest =>
    if isHeaderLine l0 then
      if strip l0 = header then (text, false)
      else
        (bomOf text ++ joinNl (header :: rest) ++
          (if endsNl (stripBom text) then [nl] else []), true)
    else (bomOf text ++ header ++ nl :: nl :: stripBom text, true)

/-- A filesystem path, modelled by its textual form. -/
abbrev FsPath := List Char

/-- Lexicographic comparison of paths by code point, the deterministic total
order behind Python's `sorted`. -/
def pathLeB : List Char → List Char → Bool
  | [], _ => true
  | _ :: _, [] => false
  | a :: as, b :: bs => if a = b then pathLeB as bs else decide (a < b)

/-- The path order as a relation. -/
def pathLe (p q : FsPath) : Prop := pathLeB p q = true

instance : DecidableRel pathLe := fun p q => inferInstanceAs (Decidable (_ = true))

/-- The extension pattern of `root.rglob("*.swift")`. -/
def swiftExt : List Char := ".swift".toList

/-- Whether a path matches the `*.swift` pattern: its name, hence its textual
form, ends in `.swift`. -/
def hasSwiftExt (p : FsPath) : Bool := swiftExt.isSuffixOf p

/-- `swift_files(root)` (lines 60-61 of the script): the files below the root
that match `*.swift`, in sorted order.  The filesystem is modelled as the
list of paths of the files below the root, in arbitrary order. -/
def swift_files (files : List FsPath) : List FsPath :=
  List.insertionSort pathLe (files.filter hasSwiftExt)

/-- The content of file `p` after one run of `main` over a filesystem whose
files are `files` with contents `content`: exactly the discovered files are
rewritten through `ensure_header`. -/
def runContent (header : List Char) (files : List FsPath)
    (content : FsPath → List Char) (p : FsPath) : List Char :=
  if p ∈ swift_files files then (ensure_header header (content p)).1 else content p

/-- The `results` list built by `main` (line 79): one `FileResult` per
discovered file. -/
def mainResults (header : List Char) (files : List FsPath)
    (content : FsPath → List Char) : List (FsPath × Bool) :=
  (swift_files files).map (fun p => (p, (ensure_header header (content p)).2))

/-- `len(changed)`, the count printed by `main` (lines 80-82). -/
def changedCount (header : List Char) (files : List FsPath)
    (content : FsPath → List Char) : Nat :=
  ((mainResults header files content).filter (fun r => r.2)).length

/-- `ensure_header` with fallible file I/O: `rd` models `path.read_text` and
`wr` models `path.write_text`; an I/O error propagates out. -/
def ensure_headerE {E : Type} (rd : FsPath → Except E (List Char))
    (wr : FsPath → List Char → Except E Unit) (header : List Char) (p : FsPath) :
    Except E Bool :=
  match rd p with
  | .error e => .error e
  | .ok text =>
    let r := ensure_header header text
    if r.2 then
      match wr p r.1 with
      | .error e => .error e
      | .ok _ => .ok true
    else .ok false

/-- The list comprehension of `main` (line 79) under fallible I/O: files are
processed in order and the first I/O error aborts the run.  The second
component is the trace of files that were touched (read, and possibly
written) before the run ended. -/
def runE {E : Type} (rd : FsPath → Except E (List Char))
    (wr : FsPath → List Char → Except E Unit) (header : List Char) :
    List FsPath → Except E (List Bool) × List FsPath
  | [] => (.ok [], [])
  | p :: ps =>
    match ensure_headerE rd wr header p with
    | .error e => (.error e, [p])
    | .ok b =>
      match runE rd wr header ps with
      | (.error e, tr) => (.error e, p :: tr)
      | (.ok bs, tr) => (.ok (b :: bs), p :: tr)

/-! ### Basic facts about the line model -/

theorem splitlines_cons_ne_nil (c : Char) (cs : List Char) : splitlines (c :: cs) ≠ [] := by
  unfold splitlines
  by_cases hc : c = nl
  · simp [hc]
  · simp only [if_neg hc]
    cases splitlines cs <;> simp

theorem splitlines_eq_nil_iff {s : List Char} : splitlines s = [] ↔ s = [] := by
  cases s with
  | nil => simp [splitlines]
  | cons c cs =>
    constructor
    · intro h; exact absurd h (splitlines_cons_ne_nil c cs)
    · intro h; exact absurd h (List.cons_ne_nil c cs)

theorem splitlines_nl_cons (cs : List Char) : splitlines (nl :: cs) = [] :: splitlines cs := rfl

theorem splitlines_cons_of_ne {c : Char} (cs : List Char) (hc : c ≠ nl) :
    splitlines (c :: cs) =
      match splitlines cs with
      | [] => [[c]]
      | l :: ls => (c :: l) :: ls := by
  simp only [splitlines]
  rw [if_neg hc]

theorem not_nl_mem_splitlines : ∀ (s : List Char), ∀ l ∈ splitlines s, nl ∉ l := by
  intro s
  induction s with
  | nil => intro l hl; simp [splitlines] at hl
  | cons c cs ih =>
    intro l hl
    by_cases hc : c = nl
    · subst hc
      rw [splitlines_nl_cons] at hl
      rcases List.mem_cons.mp hl with h | h
      · subst h; simp
      · exact ih l h
    · rw [splitlines_cons_of_ne cs hc] at hl
      cases hs : splitlines cs with
      | nil =>
        rw [hs] at hl
        simp only [List.mem_singleton] at hl
        subst hl
        intro hmem
        rw [List.mem_singleton] at hmem
        exact hc hmem.symm
      | cons l1 ls =>
        rw [hs] at hl
        rcases List.mem_cons.mp hl with h | h
        · subst h
          intro hmem
          rcases List.mem_cons.mp hmem with h1 | h1
          · exact hc h1.symm
          · exact ih l1 (hs ▸ List.mem_cons_self l1 ls) h1
        · exact ih l (hs ▸ List.mem_cons_of_mem l1 h)

theorem splitlines_append_nl {h : List Char} (hh : nl ∉ h) (r : List Char) :
    splitlines (h ++ nl :: r) = h :: splitlines r := by
  induction h with
  | nil => exact splitlines_nl_cons r
  | cons c h ih =>
    have hc : c ≠ nl := fun e => hh (e ▸ List.mem_cons_self c h)
    have hh2 : nl ∉ h := fun m => hh (List.mem_cons_of_mem c m)
    rw [List.cons_append, splitlines_cons_of_ne _ hc, ih hh2]

theorem splitlines_of_not_nl {s : List Char} (hs : nl ∉ s) (hne : s ≠ []) :
    splitlines s = [s] := by
  induction s with
  | nil => exact absurd rfl hne
  | cons c cs ih =>
    have hc : c ≠ nl := fun e => hs (e ▸ List.mem_cons_self c cs)
    have hcs : nl ∉ cs := fun m => hs (List.mem_cons_of_mem c m)
    rw [splitlines_cons_of_ne cs hc]
    by_cases h0 : cs = []
    · subst h0; rfl
    · rw [ih hcs h0]

theorem joinNl_cons_cons (c : Char) (l : List Char) (ls : List (List Char)) :
    joinNl ((c :: l) :: ls) = c :: joinNl (l :: ls) := by
  cases ls with
  | nil => rfl
  | cons l2 ls => rfl

theorem joinNl_nil_cons (l : List Char) (ls : List (List Char)) :
    joinNl ([] :: l :: ls) = nl :: joinNl (l :: ls) := rfl

theorem endsNl_cons {cs : List Char} (c : Char) (h : cs ≠ []) :
    endsNl (c :: cs) = endsNl cs := by
  cases cs with
  | nil => exact absurd rfl h
  | cons d ds => unfold endsNl; rw [List.getLast?_cons_cons]

theorem joinNl_splitlines (s : List Char) :
    joinNl (splitlines s) ++ (if endsNl s then [nl] else []) = s := by
  induction s with
  | nil => rfl
  | cons c cs ih =>
    by_cases hc : c = nl
    · subst hc
      rw [splitlines_nl_cons]
      cases hs : splitlines cs with
      | nil =>
        have hcs : cs = [] := splitlines_eq_nil_iff.mp hs
        subst hcs
        rfl
      | cons l ls =>
        have hcs : cs ≠ [] := fun h => by rw [h] at hs; exact List.noConfusion hs
        rw [joinNl_nil_cons, endsNl_cons nl hcs, List.cons_append, ← hs, ih]
    · cases hs : splitlines cs with
      | nil =>
        have hcs : cs = [] := splitlines_eq_nil_iff.mp hs
        subst hcs
        have h1 : splitlines [c] = [[c]] :=
          splitlines_of_not_nl
            (fun hm => hc (List.mem_singleton.mp hm).symm) (List.cons_ne_nil c [])
        rw [h1]
        have h2 : endsNl [c] = false := by
          unfold endsNl
          rw [List.getLast?_singleton]
          exact decide_eq_false (fun h => hc (Option.some.inj h))
        rw [h2]
        rfl
      | cons l ls =>
        have hcs : cs ≠ [] := fun h => by rw [h] at hs; exact List.noConfusion hs
        rw [splitlines_cons_of_ne cs hc, hs, joinNl_cons_cons, endsNl_cons c hcs,
          List.cons_append, ← hs, ih]

theorem getLast?_cons_of_ne_nil {xs : List Char} (c : Char) (h : xs ≠ []) :
    (c :: xs).getLast? = xs.getLast? := by
  cases xs with
  | nil => exact absurd rfl h
  | cons d ds => rw [List.getLast?_cons_cons]

theorem getLast?_isSome_of_ne_nil {α : Type} {L : List α} (h : L ≠ []) :
    ∃ c, L.getLast? = some c := by
  cases L with
  | nil => exact absurd rfl h
  | cons d ds => exact ⟨(d :: ds).getLast (List.cons_ne_nil d ds),
      List.getLast?_eq_getLast (d :: ds) (List.cons_ne_nil d ds)⟩

theorem mem_of_getLast?_eq {α : Type} {xs : List α} {a : α} (h : xs.getLast? = some a) :
    a ∈ xs := by
  cases xs with
  | nil => exact Option.noConfusion h
  | cons x xs =>
    have hg := List.getLast?_eq_getLast (x :: xs) (List.cons_ne_nil x xs)
    rw [hg] at h
    rw [← Option.some.inj h]
    exact List.getLast_mem _

theorem joinNl_cons_ne_nil_of_getLast {l2 : List Char} {ls2 : List (List Char)}
    {L : List Char} (hL : (l2 :: ls2).getLast? = some L) (hLne : L ≠ []) :
    joinNl (l2 :: ls2) ≠ [] := by
  cases ls2 with
  | nil =>
    rw [List.getLast?_singleton] at hL
    rw [Option.some.inj hL]
    exact hLne
  | cons l3 ls3 =>
    show l2 ++ nl :: joinNl (l3 :: ls3) ≠ []
    simp

theorem getLast?_joinNl : ∀ (ls : List (List Char)) (L : List Char),
    ls.getLast? = some L → L ≠ [] → (joinNl ls).getLast? = L.getLast? := by
  intro ls
  induction ls with
  | nil => intro L hL _; exact Option.noConfusion hL
  | cons l ls ih =>
    intro L hL hLne
    cases ls with
    | nil =>
      rw [List.getLast?_singleton] at hL
      rw [Option.some.inj hL]
      rfl
    | cons l2 ls2 =>
      rw [List.getLast?_cons_cons] at hL
      have hJ : joinNl (l2 :: ls2) ≠ [] := joinNl_cons_ne_nil_of_getLast hL hLne
      have hrec : (joinNl (l2 :: ls2)).getLast? = L.getLast? := ih L hL hLne
      show (l ++ nl :: joinNl (l2 :: ls2)).getLast? = L.getLast?
      rw [List.getLast?_append, getLast?_cons_of_ne_nil nl hJ, hrec]
      obtain ⟨c, hc⟩ := getLast?_isSome_of_ne_nil hLne
      rw [hc]
      rfl

theorem splitlines_joinNl_append_nl {ls : List (List Char)} (hls : ∀ l ∈ ls, nl ∉ l)
    (hne : ls ≠ []) : splitlines (joinNl ls ++ [nl]) = ls := by
  induction ls with
  | nil => exact absurd rfl hne
  | cons l ls ih =>
    cases ls with
    | nil =>
      show splitlines (l ++ nl :: []) = [l]
      rw [splitlines_append_nl (hls l (List.mem_cons_self l []))]
      rfl
    | cons l2 ls2 =>
      show splitlines ((l ++ nl :: joinNl (l2 :: ls2)) ++ [nl]) = l :: l2 :: ls2
      rw [List.append_assoc, List.cons_append,
        splitlines_append_nl (hls l (List.mem_cons_self _ _)),
        ih (fun x hx => hls x (List.mem_cons_of_mem l hx)) (List.cons_ne_nil _ _)]

theorem splitlines_joinNl {ls : List (List Char)} (hls : ∀ l ∈ ls, nl ∉ l)
    (hlast : ∀ l, ls.getLast? = some l → l ≠ []) (hne : ls ≠ []) :
    splitlines (joinNl ls) = ls := by
  induction ls with
  | nil => exact absurd rfl hne
  | cons l ls ih =>
    cases ls with
    | nil =>
      show splitlines l = [l]
      exact splitlines_of_not_nl (hls l (List.mem_cons_self _ _))
        (hlast l (List.getLast?_singleton l))
    | cons l2 ls2 =>
      show splitlines (l ++ nl :: joinNl (l2 :: ls2)) = l :: l2 :: ls2
      rw [splitlines_append_nl (hls l (List.mem_cons_self _ _)),
        ih (fun x hx => hls x (List.mem_cons_of_mem l hx))
          (fun x hx => hlast x (by rw [List.getLast?_cons_cons]; exact hx))
          (List.cons_ne_nil _ _)]

theorem splitlines_getLast_ne_nil {s : List Char} (hs : endsNl s = false) :
    ∀ l, (splitlines s).getLast? = some l → l ≠ [] := by
  induction s with
  | nil => intro l hl; exact Option.noConfusion hl
  | cons c cs ih =>
    intro l hl
    by_cases hc : c = nl
    · subst hc
      rw [splitlines_nl_cons] at hl
      cases hcs : splitlines cs with
      | nil =>
        have hce : cs = [] := splitlines_eq_nil_iff.mp hcs
        subst hce
        have ht : endsNl [nl] = true := by
          unfold endsNl
          rw [List.getLast?_singleton]
          exact decide_eq_true rfl
        rw [ht] at hs
        exact Bool.noConfusion hs
      | cons m ms =>
        rw [hcs, List.getLast?_cons_cons] at hl
        have hcsne : cs ≠ [] := fun h => by rw [h] at hcs; exact List.noConfusion hcs
        have he : endsNl cs = false := by rw [← endsNl_cons nl hcsne]; exact hs
        exact ih he l (by rw [hcs]; exact hl)
    · cases hcs : splitlines cs with
      | nil =>
        have hce : cs = [] := splitlines_eq_nil_iff.mp hcs
        subst hce
        have h1 : splitlines [c] = [[c]] :=
          splitlines_of_not_nl
            (fun hm => hc (List.mem_singleton.mp hm).symm) (List.cons_ne_nil c [])
        rw [h1, List.getLast?_singleton] at hl
        rw [← Option.some.inj hl]
        exact List.cons_ne_nil c []
      | cons m ms =>
        rw [splitlines_cons_of_ne cs hc, hcs] at hl
        have hcsne : cs ≠ [] := fun h => by rw [h] at hcs; exact List.noConfusion hcs
        have he : endsNl cs = false := by rw [← endsNl_cons c hcsne]; exact hs
        cases ms with
        | nil =>
          rw [List.getLast?_singleton] at hl
          rw [← Option.some.inj hl]
          exact List.cons_ne_nil c m
        | cons m2 ms2 =>
          rw [List.getLast?_cons_cons] at hl
          exact ih he l (by rw [hcs, List.getLast?_cons_cons]; exact hl)

/-! ### BOM bookkeeping -/

theorem startsBom_eq_false_of_head {u : List Char} (hu : u.head? ≠ some bomChar) :
    startsBom u = false := decide_eq_false hu

theorem startsBom_bom_cons (u : List Char) : startsBom (bomChar :: u) = true :=
  decide_eq_true rfl

theorem stripBom_eq_self {u : List Char} (hu : startsBom u = false) : stripBom u = u := by
  simp [stripBom, hu]

theorem bomOf_eq_nil {u : List Char} (hu : startsBom u = false) : bomOf u = [] := by
  simp [bomOf, hu]

theorem stripBom_bom_cons (u : List Char) : stripBom (bomChar :: u) = u := by
  simp [stripBom, startsBom_bom_cons]

theorem bomOf_bom_cons (u : List Char) : bomOf (bomChar :: u) = [bomChar] := by
  simp [bomOf, startsBom_bom_cons]

theorem bom_stripBom (text : List Char) : bomOf text ++ stripBom text = text := by
  cases text with
  | nil => rfl
  | cons c cs =>
    by_cases hc : c = bomChar
    · subst hc
      rw [bomOf_bom_cons, stripBom_bom_cons]
      rfl
    · have h : startsBom (c :: cs) = false :=
        startsBom_eq_false_of_head (fun he => hc (Option.some.inj he))
      rw [bomOf_eq_nil h, stripBom_eq_self h]
      rfl

/-! ### Branch analysis of ensure_header -/

theorem ensure_header_insert {header text : List Char}
    (h : hasHeader (stripBom text) = false) :
    ensure_header header text =
      (bomOf text ++ header ++ nl :: nl :: stripBom text, true) := by
  unfold ensure_header
  split
  · rfl
  · next l0 rest hs =>
    have h2 : isHeaderLine l0 = false := by
      unfold hasHeader at h
      rw [hs] at h
      exact h
    rw [h2]
    rfl

theorem ensure_header_unchanged {header text l0 : List Char} {rest : List (List Char)}
    (hs : splitlines (stripBom text) = l0 :: rest)
    (hh : isHeaderLine l0 = true) (he : strip l0 = header) :
    ensure_header header text = (text, false) := by
  unfold ensure_header
  rw [hs]
  simp [hh, he]

theorem ensure_header_replace {header text l0 : List Char} {rest : List (List Char)}
    (hs : splitlines (stripBom text) = l0 :: rest)
    (hh : isHeaderLine l0 = true) (he : strip l0 ≠ header) :
    ensure_header header text =
      (bomOf text ++ joinNl (header :: rest) ++
        (if endsNl (stripBom text) then [nl] else []), true) := by
  unfold ensure_header
  rw [hs]
  simp [hh, he]

theorem hasHeader_eq_false_of {t l0 : List Char} {rest : List (List Char)}
    (hs : splitlines t = l0 :: rest) (hh : isHeaderLine l0 = false) :
    hasHeader t = false := by
  unfold hasHeader
  rw [hs]
  exact hh

theorem hasHeader_nil : hasHeader [] = false := rfl

theorem splitlines_insert (header t : List Char) (hnl : nl ∉ header) :
    splitlines (header ++ nl :: nl :: t) = header :: [] :: splitlines t := by
  rw [splitlines_append_nl hnl, splitlines_nl_cons]

/-! ### When does the script report a change -/

theorem append_nl_inj : ∀ {a b x y : List Char}, nl ∉ a → nl ∉ b →
    a ++ nl :: x = b ++ nl :: y → a = b ∧ x = y := by
  intro a
  induction a with
  | nil =>
    intro b x y _ hb h
    cases b with
    | nil => exact ⟨rfl, (List.cons.inj h).2⟩
    | cons c bs =>
      have hc := (List.cons.inj h).1
      exact absurd (by rw [← hc]; exact List.mem_cons_self nl bs) hb
  | cons c as ih =>
    intro b x y ha hb h
    cases b with
    | nil =>
      have hc := (List.cons.inj h).1
      exact absurd (by rw [hc]; exact List.mem_cons_self nl as) ha
    | cons d bs =>
      have h1 := List.cons.inj h
      have h2 := ih (fun m => ha (List.mem_cons_of_mem c m))
        (fun m => hb (List.mem_cons_of_mem d m)) h1.2
      exact ⟨by rw [h1.1, h2.1], h2.2⟩

theorem ensure_header_not_changed {header text : List Char}
    (h : (ensure_header header text).2 = false) : (ensure_header header text).1 = text := by
  cases hs : splitlines (stripBom text) with
  | nil =>
    rw [ensure_header_insert (by unfold hasHeader; rw [hs])] at h
    exact Bool.noConfusion h
  | cons l0 rest =>
    cases hh : isHeaderLine l0 with
    | false =>
      rw [ensure_header_insert (hasHeader_eq_false_of hs hh)] at h
      exact Bool.noConfusion h
    | true =>
      by_cases he : strip l0 = header
      · rw [ensure_header_unchanged hs hh he]
      · rw [ensure_header_replace hs hh he] at h
        exact Bool.noConfusion h

theorem ensure_header_changed_ne {header text : List Char}
    (hstrip : strip header = header) (hnl : nl ∉ header)
    (h : (ensure_header header text).2 = true) : (ensure_header header text).1 ≠ text := by
  cases hs : splitlines (stripBom text) with
  | nil =>
    rw [ensure_header_insert (by unfold hasHeader; rw [hs])]
    intro heq
    have hlen1 := congrArg List.length heq
    have hlen2 := congrArg List.length (bom_stripBom text)
    simp [List.length_append] at hlen1 hlen2
    omega
  | cons l0 rest =>
    cases hh : isHeaderLine l0 with
    | false =>
      rw [ensure_header_insert (hasHeader_eq_false_of hs hh)]
      intro heq
      have hlen1 := congrArg List.length heq
      have hlen2 := congrArg List.length (bom_stripBom text)
      simp [List.length_append] at hlen1 hlen2
      omega
    | true =>
      by_cases he : strip l0 = header
      · rw [ensure_header_unchanged hs hh he] at h
        exact Bool.noConfusion h
      · rw [ensure_header_replace hs hh he]
        intro heq
        have hround : joinNl (l0 :: rest) ++ (if endsNl (stripBom text) then [nl] else []) =
            stripBom text := by
          rw [← hs]
          exact joinNl_splitlines (stripBom text)
        have heqp : bomOf text ++ joinNl (header :: rest) ++
            (if endsNl (stripBom text) then [nl] else []) = text := heq
        have heq1 : bomOf text ++
            (joinNl (header :: rest) ++ (if endsNl (stripBom text) then [nl] else [])) =
            bomOf text ++ stripBom text := by
          rw [← List.append_assoc, heqp, bom_stripBom]
        have heq2 :
            joinNl (header :: rest) ++ (if endsNl (stripBom text) then [nl] else []) =
            joinNl (l0 :: rest) ++ (if endsNl (stripBom text) then [nl] else []) := by
          rw [hround]
          exact List.append_cancel_left heq1
        have heq3 : joinNl (header :: rest) = joinNl (l0 :: rest) :=
          List.append_cancel_right heq2
        have hmem0 : nl ∉ l0 :=
          not_nl_mem_splitlines (stripBom text) l0 (hs ▸ List.mem_cons_self l0 rest)
        cases rest with
        | nil =>
          have hhl : header = l0 := heq3
          exact he (by rw [← hhl]; exact hstrip)
        | cons r rs =>
          have hinj : header ++ nl :: joinNl (r :: rs) = l0 ++ nl :: joinNl (r :: rs) := heq3
          have hhl := (append_nl_inj hnl hmem0 hinj).1
          exact he (by rw [← hhl]; exact hstrip)

/-! ### Heads, last characters, and output shape -/

theorem bomOf_eq_bom {u : List Char} (h : startsBom u = true) : bomOf u = [bomChar] := by
  simp [bomOf, h]

theorem stripBom_bomOf_append (text : List Char) {u : List Char}
    (hu : u.head? ≠ some bomChar) :
    stripBom (bomOf text ++ u) = u ∧ bomOf (bomOf text ++ u) = bomOf text := by
  cases hb : startsBom text with
  | false =>
    rw [bomOf_eq_nil hb, List.nil_append]
    have h2 : startsBom u = false := startsBom_eq_false_of_head hu
    exact ⟨stripBom_eq_self h2, bomOf_eq_nil h2⟩
  | true =>
    rw [bomOf_eq_bom hb, List.singleton_append]
    exact ⟨stripBom_bom_cons u, bomOf_bom_cons u⟩

theorem head?_joinNl_cons_append {c : Char} (h : List Char) (rest : List (List Char))
    (T : List Char) : (joinNl ((c :: h) :: rest) ++ T).head? = some c := by
  rw [joinNl_cons_cons]
  rfl

theorem head?_insert_ne_bom {header : List Char} (hbom : header.head? ≠ some bomChar)
    (t : List Char) : (header ++ nl :: nl :: t).head? ≠ some bomChar := by
  cases header with
  | nil =>
    intro h
    exact absurd (Option.some.inj h) (by decide)
  | cons c h2 => exact fun hh => hbom hh

theorem head?_replace_ne_bom {header : List Char} (hbom : header.head? ≠ some bomChar)
    (rest : List (List Char)) (T : List Char) (hT : T = [] ∨ T = [nl]) :
    (joinNl (header :: rest) ++ T).head? ≠ some bomChar := by
  cases header with
  | cons c h2 =>
    rw [head?_joinNl_cons_append]
    exact fun hx => hbom hx
  | nil =>
    cases rest with
    | cons r rs =>
      rw [joinNl_nil_cons, List.cons_append]
      intro hx
      exact absurd (Option.some.inj hx) (by decide)
    | nil =>
      show (([] : List Char) ++ T).head? ≠ some bomChar
      rw [List.nil_append]
      rcases hT with h | h <;> rw [h]
      · intro hx; exact Option.noConfusion hx
      · intro hx; exact absurd (Option.some.inj hx) (by decide)

theorem getLast?_ne_nl_of_not_mem {L : List Char} (h : nl ∉ L) :
    ∀ c, L.getLast? = some c → c ≠ nl := by
  intro c hc hcn
  subst hcn
  exact h (mem_of_getLast?_eq hc)

theorem endsNl_append_right {a b : List Char} (hb : b ≠ []) : endsNl (a ++ b) = endsNl b := by
  unfold endsNl
  rw [List.getLast?_append]
  obtain ⟨c, hc⟩ := getLast?_isSome_of_ne_nil hb
  rw [hc]
  rfl

theorem endsNl_joinNl_false {header : List Char} {rest : List (List Char)} {L : List Char}
    (hlines : ∀ l ∈ header :: rest, nl ∉ l)
    (hL : (header :: rest).getLast? = some L) (hLne : L ≠ []) :
    endsNl (joinNl (header :: rest)) = false := by
  unfold endsNl
  rw [getLast?_joinNl _ L hL hLne]
  obtain ⟨c, hc⟩ := getLast?_isSome_of_ne_nil hLne
  rw [hc]
  have hcn : c ≠ nl :=
    getLast?_ne_nl_of_not_mem (hlines L (mem_of_getLast?_eq hL)) c hc
  exact decide_eq_false (fun hx => hcn (Option.some.inj hx))

theorem ensure_header_replace_lines {header text l0 : List Char} {rest : List (List Char)}
    (hnl : nl ∉ header) (hne : header ≠ []) (hbom : header.head? ≠ some bomChar)
    (hs : splitlines (stripBom text) = l0 :: rest)
    (hh : isHeaderLine l0 = true) (he : strip l0 ≠ header) :
    (ensure_header header text).2 = true ∧
    bomOf (ensure_header header text).1 = bomOf text ∧
    splitlines (stripBom (ensure_header header text).1) = header :: rest := by
  have hrest : ∀ l ∈ rest, nl ∉ l := fun l hl =>
    not_nl_mem_splitlines (stripBom text) l (hs ▸ List.mem_cons_of_mem l0 hl)
  have hlines : ∀ l ∈ header :: rest, nl ∉ l := by
    intro l hl
    rcases List.mem_cons.mp hl with h | h
    · rw [h]; exact hnl
    · exact hrest l h
  obtain ⟨c, h2, hch⟩ : ∃ c h2, header = c :: h2 := by
    cases header with
    | nil => exact absurd rfl hne
    | cons c h2 => exact ⟨c, h2, rfl⟩
  have hcb : c ≠ bomChar := fun hcb => hbom (by rw [hch, hcb]; rfl)
  have hhead : (joinNl (header :: rest) ++
      (if endsNl (stripBom text) then [nl] else [])).head? ≠ some bomChar := by
    rw [hch, head?_joinNl_cons_append]
    exact fun hx => hcb (Option.some.inj hx)
  have hsb := stripBom_bomOf_append text hhead
  rw [ensure_header_replace hs hh he]
  refine ⟨rfl, ?_, ?_⟩
  · show bomOf (bomOf text ++ joinNl (header :: rest) ++
        (if endsNl (stripBom text) then [nl] else [])) = bomOf text
    rw [List.append_assoc]
    exact hsb.2
  · show splitlines (stripBom (bomOf text ++ joinNl (header :: rest) ++
        (if endsNl (stripBom text) then [nl] else []))) = header :: rest
    rw [List.append_assoc, hsb.1]
    cases hT : endsNl (stripBom text) with
    | true =>
      show splitlines (joinNl (header :: rest) ++ [nl]) = header :: rest
      exact splitlines_joinNl_append_nl hlines (List.cons_ne_nil _ _)
    | false =>
      show splitlines (joinNl (header :: rest) ++ []) = header :: rest
      rw [List.append_nil]
      have hlast : ∀ x, (header :: rest).getLast? = some x → x ≠ [] := by
        intro x hx
        cases rest with
        | nil =>
          rw [List.getLast?_singleton] at hx
          rw [← Option.some.inj hx]
          exact hne
        | cons r rs =>
          rw [List.getLast?_cons_cons] at hx
          apply splitlines_getLast_ne_nil hT x
          rw [hs, List.getLast?_cons_cons]
          exact hx
      exact splitlines_joinNl hlines hlast (List.cons_ne_nil _ _)

theorem copyrightMarker_eq : copyrightMarker = '/' :: "/ Copyright ©".toList := by decide

theorem head_of_marker_prefix {u : List Char} (h : copyrightMarker.isPrefixOf u = true) :
    ∃ r, u = '/' :: r := by
  obtain ⟨t, ht⟩ := List.isPrefixOf_iff_prefix.mp h
  refine ⟨"/ Copyright ©".toList ++ t, ?_⟩
  rw [← ht, copyrightMarker_eq, List.cons_append]

/-! ### The path order is total and transitive -/

theorem pathLeB_total : ∀ a b : List Char, pathLeB a b = true ∨ pathLeB b a = true := by
  intro a
  induction a with
  | nil => intro b; exact Or.inl rfl
  | cons x as ih =>
    intro b
    cases b with
    | nil => exact Or.inr rfl
    | cons y bs =>
      by_cases hxy : x = y
      · subst hxy
        rcases ih bs with h | h
        · exact Or.inl (by unfold pathLeB; rw [if_pos rfl]; exact h)
        · exact Or.inr (by unfold pathLeB; rw [if_pos rfl]; exact h)
      · rcases lt_or_gt_of_ne hxy with h | h
        · exact Or.inl (by unfold pathLeB; rw [if_neg hxy]; exact decide_eq_true h)
        · exact Or.inr
            (by unfold pathLeB; rw [if_neg (fun e => hxy e.symm)]; exact decide_eq_true h)

theorem pathLeB_trans : ∀ a b c : List Char,
    pathLeB a b = true → pathLeB b c = true → pathLeB a c = true := by
  intro a
  induction a with
  | nil => intro b c _ _; rfl
  | cons x as ih =>
    intro b c hab hbc
    cases b with
    | nil => exact Bool.noConfusion hab
    | cons y bs =>
      cases c with
      | nil => exact Bool.noConfusion hbc
      | cons z cs =>
        unfold pathLeB at hab hbc ⊢
        by_cases hxy : x = y
        · subst hxy
          rw [if_pos rfl] at hab
          by_cases hyz : x = z
          · subst hyz
            rw [if_pos rfl] at hbc
            rw [if_pos rfl]
            exact ih bs cs hab hbc
          · rw [if_neg hyz] at hbc
            rw [if_neg hyz]
            exact hbc
        · rw [if_neg hxy] at hab
          have hxy2 : x < y := of_decide_eq_true hab
          by_cases hyz : y = z
          · subst hyz
            rw [if_neg hxy]
            exact hab
          · rw [if_neg hyz] at hbc
            have hyz2 : y < z := of_decide_eq_true hbc
            have hxz : x < z := lt_trans hxy2 hyz2
            rw [if_neg (ne_of_lt hxz)]
            exact decide_eq_true hxz

/-! ### Counting changed files -/

theorem count_changed_eq {header : List Char} (content : FsPath → List Char)
    (hstrip : strip header = header) (hnl : nl ∉ header) :
    ∀ L : List FsPath,
      ((L.map (fun p => (p, (ensure_header header (content p)).2))).filter
        (fun r => r.2)).length =
      (L.filter (fun p => decide ((ensure_header header (content p)).1 ≠ content p))).length := by
  intro L
  induction L with
  | nil => rfl
  | cons p ps ih =>
    have hpt : (ensure_header header (content p)).2 =
        decide ((ensure_header header (content p)).1 ≠ content p) := by
      cases h2 : (ensure_header header (content p)).2 with
      | false =>
        have hc := ensure_header_not_changed h2
        exact (decide_eq_false (fun hne2 => hne2 hc)).symm
      | true =>
        have hc := ensure_header_changed_ne hstrip hnl h2
        exact (decide_eq_true hc).symm
    cases hb : (ensure_header header (content p)).2 with
    | true =>
      have hd : (ensure_header header (content p)).1 ≠ content p := by
        rw [hpt] at hb
        exact of_decide_eq_true hb
      simp [List.filter_cons, hb, hd, ih]
    | false =>
      have hd : (ensure_header header (content p)).1 = content p :=
        ensure_header_not_changed hb
      simp [List.filter_cons, hb, hd, ih]

/-! ### Concrete inputs used by the witnesses -/

/-- The header for a 2025 run. -/
def hdrW : List Char := current_header_line 2025

/-- A file with a stale header (base year repeated) and one body line. -/
def staleW : List Char := "// Copyright © 2024–2024 Yuze Pan. 保留一切权利。\nbody\n".toList

/-- A file with no copyright line at all. -/
def plainW : List Char := "import Foundation\n".toList

/-- A file whose first line is a copyright line of a different holder. -/
def otherHolderW : List Char := "// Copyright © 2020 Someone Else\ncode\n".toList

/-- A file whose first line is exactly the 2025 header. -/
def exactW : List Char := hdrW ++ nl :: "body".toList

/-- The stale file preceded by a byte-order marker. -/
def bomStaleW : List Char := bomChar :: staleW

/-- A small filesystem and its contents. -/
def filesW : List FsPath := ["b.swift".toList, "a.txt".toList, "a.swift".toList]

/-- Every file of the small filesystem is empty. -/
def contentW : FsPath → List Char := fun _ => []

/-- A reader that always fails, an always-succeeding writer. -/
def rdW : FsPath → Except Nat (List Char) := fun _ => Except.error 7

/-- The writer of the failing-run witness. -/
def wrW : FsPath → List Char → Except Nat Unit := fun _ _ => Except.ok ()

/-! ### The claims -/

/-- C1: for every file whose first line, after trimming, starts with the marker
`// Copyright ©` and contains the holder name but (after trimming) is not the
freshly computed header, `ensure_header` replaces only that first line with the
new header: the rewritten content splits into the new header followed by
exactly the original remaining lines, and the byte-order marker is unchanged. -/
theorem stale_header_rewrite_frame (header text l0 : List Char) (rest : List (List Char))
    (hnl : nl ∉ header) (hne : header ≠ []) (hbom : header.head? ≠ some bomChar)
    (hs : splitlines (stripBom text) = l0 :: rest)
    (hmark : copyrightMarker.isPrefixOf (strip l0) = true)
    (hhold : containsSub COPYRIGHT_HOLDER l0 = true)
    (hstale : strip l0 ≠ header) :
    splitlines (stripBom (ensure_header header text).1) = header :: rest ∧
    bomOf (ensure_header header text).1 = bomOf text := by
  have hh : isHeaderLine l0 = true := by
    unfold isHeaderLine
    rw [hmark, hhold]
    rfl
  have h := ensure_header_replace_lines hnl hne hbom hs hh hstale
  exact ⟨h.2.2, h.2.1⟩

/-- Witness for C1 on the stale file. -/
theorem stale_header_rewrite_frame_witness :
    splitlines (stripBom (ensure_header hdrW staleW).1) = hdrW :: ["body".toList] ∧
    bomOf (ensure_header hdrW staleW).1 = bomOf staleW :=
  stale_header_rewrite_frame hdrW staleW
    ("// Copyright © 2024–2024 Yuze Pan. 保留一切权利。".toList) ["body".toList]
    (by decide) (by decide) (by decide) (by decide) (by decide) (by decide) (by decide)

/-- C2 as written is false: the script compares the *stripped* first line to
the header, so a first line that differs from the header only by surrounding
whitespace is not rewritten and is reported unchanged, although it does not
equal the header character for character. -/
theorem exact_mismatch_counterexample :
    copyrightMarker.isPrefixOf (strip (' ' :: current_header_line 2025)) = true ∧
    containsSub COPYRIGHT_HOLDER (' ' :: current_header_line 2025) = true ∧
    splitlines (stripBom ((' ' :: current_header_line 2025) ++ [nl])) =
      [' ' :: current_header_line 2025] ∧
    (' ' :: current_header_line 2025) ≠ current_header_line 2025 ∧
    ensure_header (current_header_line 2025) ((' ' :: current_header_line 2025) ++ [nl]) =
      ((' ' :: current_header_line 2025) ++ [nl], false) := by
  decide

/-- C2 amended: for every file whose first line, trimmed, starts with the
copyright marker prefix and contains the holder name, if that first line
*after trimming* does not equal the freshly computed header, `ensure_header`
rewrites the file (the content changes), the first line becomes the new
header, and the file is reported as changed. -/
theorem trimmed_mismatch_rewrites (header text l0 : List Char) (rest : List (List Char))
    (hstrip : strip header = header) (hnl : nl ∉ header) (hne : header ≠ [])
    (hbom : header.head? ≠ some bomChar)
    (hs : splitlines (stripBom text) = l0 :: rest)
    (hmark : copyrightMarker.isPrefixOf (strip l0) = true)
    (hhold : containsSub COPYRIGHT_HOLDER l0 = true)
    (hstale : strip l0 ≠ header) :
    (ensure_header header text).2 = true ∧
    (ensure_header header text).1 ≠ text ∧
    (splitlines (stripBom (ensure_header header text).1)).head? = some header := by
  have hh : isHeaderLine l0 = true := by
    unfold isHeaderLine
    rw [hmark, hhold]
    rfl
  have h := ensure_header_replace_lines hnl hne hbom hs hh hstale
  refine ⟨h.1, ensure_header_changed_ne hstrip hnl h.1, ?_⟩
  rw [h.2.2]
  rfl

/-- Witness for the amended C2 on the stale file. -/
theorem trimmed_mismatch_rewrites_witness :
    (ensure_header hdrW staleW).2 = true ∧
    (ensure_header hdrW staleW).1 ≠ staleW ∧
    (splitlines (stripBom (ensure_header hdrW staleW).1)).head? = some hdrW :=
  trimmed_mismatch_rewrites hdrW staleW
    ("// Copyright © 2024–2024 Yuze Pan. 保留一切权利。".toList) ["body".toList]
    (by decide) (by decide) (by decide) (by decide) (by decide) (by decide) (by decide)
    (by decide)

/-- C3: for every file with no header line (no first line, or a first line
that fails the marker/holder test), one run of `ensure_header` prepends
exactly the header and one blank line before the original content (keeping
the BOM) and reports changed; a second run with the same header returns the
content untouched and reports unchanged. -/
theorem no_header_insert_idempotent (header text : List Char)
    (hstrip : strip header = header)
    (hmark : copyrightMarker.isPrefixOf header = true)
    (hhold : containsSub COPYRIGHT_HOLDER header = true)
    (hnl : nl ∉ header)
    (hno : hasHeader (stripBom text) = false) :
    ensure_header header text = (bomOf text ++ header ++ nl :: nl :: stripBom text, true) ∧
    ensure_header header (bomOf text ++ header ++ nl :: nl :: stripBom text) =
      (bomOf text ++ header ++ nl :: nl :: stripBom text, false) := by
  obtain ⟨r0, hr0⟩ := head_of_marker_prefix hmark
  have hbom : header.head? ≠ some bomChar := by
    rw [hr0]
    intro hx
    exact absurd (Option.some.inj hx) (by decide)
  refine ⟨ensure_header_insert hno, ?_⟩
  have hN : bomOf text ++ header ++ nl :: nl :: stripBom text =
      bomOf text ++ (header ++ nl :: nl :: stripBom text) := List.append_assoc _ _ _
  have hu : (header ++ nl :: nl :: stripBom text).head? ≠ some bomChar :=
    head?_insert_ne_bom hbom (stripBom text)
  have hsb := stripBom_bomOf_append text hu
  have hs2 : splitlines (stripBom (bomOf text ++ header ++ nl :: nl :: stripBom text)) =
      header :: [] :: splitlines (stripBom text) := by
    rw [hN, hsb.1, splitlines_insert header (stripBom text) hnl]
  have hh2 : isHeaderLine header = true := by
    unfold isHeaderLine
    rw [hstrip, hmark, hhold]
    rfl
  exact ensure_header_unchanged hs2 hh2 hstrip

/-- Witness for C3 on a header-less file. -/
theorem no_header_insert_idempotent_witness :
    ensure_header hdrW plainW = (bomOf plainW ++ hdrW ++ nl :: nl :: stripBom plainW, true) ∧
    ensure_header hdrW (bomOf plainW ++ hdrW ++ nl :: nl :: stripBom plainW) =
      (bomOf plainW ++ hdrW ++ nl :: nl :: stripBom plainW, false) :=
  no_header_insert_idempotent hdrW plainW
    (by decide) (by decide) (by decide) (by decide) (by decide)

/-- C4 as written is false: rewriting an empty file prepends the header and a
blank line, so the rewritten content ends with a newline although the empty
original did not. -/
theorem trailing_newline_counterexample :
    (ensure_header (current_header_line 2025) []).2 = true ∧
    endsNl [] = false ∧
    endsNl (ensure_header (current_header_line 2025) []).1 = true := by
  decide

/-- C4 amended: for every file whose content after any byte-order marker is
nonempty, the rewritten content ends with a newline exactly when the original
content did (empty files, in contrast, gain a trailing newline). -/
theorem trailing_newline_preserved (header text : List Char)
    (hnl : nl ∉ header) (hne : header ≠ [])
    (hnonempty : stripBom text ≠ []) :
    endsNl (ensure_header header text).1 = endsNl text := by
  have het : endsNl text = endsNl (stripBom text) := by
    cases hb : startsBom text with
    | false => rw [stripBom_eq_self hb]
    | true =>
      conv_lhs => rw [← bom_stripBom text]
      rw [bomOf_eq_bom hb, List.singleton_append, endsNl_cons bomChar hnonempty]
  cases hs : splitlines (stripBom text) with
  | nil => exact absurd (splitlines_eq_nil_iff.mp hs) hnonempty
  | cons l0 rest =>
    cases hh : isHeaderLine l0 with
    | false =>
      rw [ensure_header_insert (hasHeader_eq_false_of hs hh)]
      show endsNl (bomOf text ++ header ++ nl :: nl :: stripBom text) = endsNl text
      rw [endsNl_append_right (List.cons_ne_nil _ _), endsNl_cons nl (List.cons_ne_nil _ _),
        endsNl_cons nl hnonempty, het]
    | true =>
      by_cases he : strip l0 = header
      · rw [ensure_header_unchanged hs hh he]
      · rw [ensure_header_replace hs hh he]
        cases hT : endsNl (stripBom text) with
        | true =>
          show endsNl (bomOf text ++ joinNl (header :: rest) ++ [nl]) = endsNl text
          rw [het, hT, endsNl_append_right (List.cons_ne_nil nl [])]
          decide
        | false =>
          show endsNl (bomOf text ++ joinNl (header :: rest) ++ []) = endsNl text
          rw [List.append_nil, het, hT]
          obtain ⟨c0, h20, hch⟩ : ∃ c0 h20, header = c0 :: h20 := by
            cases header with
            | nil => exact absurd rfl hne
            | cons a b => exact ⟨a, b, rfl⟩
          have hJne : joinNl (header :: rest) ≠ [] := by
            rw [hch, joinNl_cons_cons]
            exact List.cons_ne_nil _ _
          rw [endsNl_append_right hJne]
          have hlines : ∀ l ∈ header :: rest, nl ∉ l := by
            intro l hl
            rcases List.mem_cons.mp hl with h | h
            · rw [h]; exact hnl
            · exact not_nl_mem_splitlines (stripBom text) l
                (hs ▸ List.mem_cons_of_mem l0 h)
          cases hr : rest with
          | nil =>
            rw [hr] at hlines
            exact endsNl_joinNl_false hlines (List.getLast?_singleton header) hne
          | cons r rs =>
            rw [hr] at hlines
            obtain ⟨L, hL2⟩ := getLast?_isSome_of_ne_nil (List.cons_ne_nil r rs)
            have hL3 : (header :: r :: rs).getLast? = some L := by
              rw [List.getLast?_cons_cons]
              exact hL2
            have hsl : (splitlines (stripBom text)).getLast? = some L := by
              rw [hs, hr, List.getLast?_cons_cons]
              exact hL2
            have hLne : L ≠ [] := splitlines_getLast_ne_nil hT L hsl
            exact endsNl_joinNl_false hlines hL3 hLne

/-- Witness for the amended C4 on the stale file. -/
theorem trailing_newline_preserved_witness :
    endsNl (ensure_header hdrW staleW).1 = endsNl staleW :=
  trailing_newline_preserved hdrW staleW (by decide) (by decide) (by decide)

/-- C5: for every file starting with the byte-order marker, whenever
`ensure_header` rewrites it (header replaced or inserted), the rewritten
content starts with the byte-order marker and its second character is not
another byte-order marker: the marker is present exactly once at the start. -/
theorem bom_preserved_once (header text : List Char)
    (hb : startsBom text = true) (hhd : header.head? ≠ some bomChar)
    (hch : (ensure_header header text).2 = true) :
    (ensure_header header text).1.head? = some bomChar ∧
    (ensure_header header text).1.tail.head? ≠ some bomChar := by
  cases hs : splitlines (stripBom text) with
  | nil =>
    rw [ensure_header_insert (by unfold hasHeader; rw [hs]), bomOf_eq_bom hb,
      List.singleton_append, List.cons_append]
    exact ⟨rfl, head?_insert_ne_bom hhd (stripBom text)⟩
  | cons l0 rest =>
    cases hh : isHeaderLine l0 with
    | false =>
      rw [ensure_header_insert (hasHeader_eq_false_of hs hh), bomOf_eq_bom hb,
        List.singleton_append, List.cons_append]
      exact ⟨rfl, head?_insert_ne_bom hhd (stripBom text)⟩
    | true =>
      by_cases he : strip l0 = header
      · rw [ensure_header_unchanged hs hh he] at hch
        exact Bool.noConfusion hch
      · rw [ensure_header_replace hs hh he, bomOf_eq_bom hb,
          List.singleton_append, List.cons_append]
        refine ⟨rfl, head?_replace_ne_bom hhd rest _ ?_⟩
        by_cases hE : endsNl (stripBom text) = true
        · exact Or.inr (if_pos hE)
        · exact Or.inl (if_neg hE)

/-- Witness for C5 on the stale file preceded by a byte-order marker. -/
theorem bom_preserved_once_witness :
    (ensure_header hdrW bomStaleW).1.head? = some bomChar ∧
    (ensure_header hdrW bomStaleW).1.tail.head? ≠ some bomChar :=
  bom_preserved_once hdrW bomStaleW (by decide) (by decide) (by decide)

/-- C6: for every file whose first line equals the freshly computed header
exactly, `ensure_header` reports it unchanged and returns the content as it
was. -/
theorem exact_header_unchanged (header text : List Char)
    (hstrip : strip header = header)
    (hmark : copyrightMarker.isPrefixOf header = true)
    (hhold : containsSub COPYRIGHT_HOLDER header = true)
    (hfirst : (splitlines (stripBom text)).head? = some header) :
    ensure_header header text = (text, false) := by
  cases hs : splitlines (stripBom text) with
  | nil =>
    rw [hs] at hfirst
    exact Option.noConfusion hfirst
  | cons l0 rest =>
    rw [hs] at hfirst
    have hl0 : l0 = header := Option.some.inj hfirst
    subst hl0
    have hh : isHeaderLine l0 = true := by
      unfold isHeaderLine
      rw [hstrip, hmark, hhold]
      rfl
    exact ensure_header_unchanged hs hh hstrip

/-- Witness for C6 on a file whose first line is the 2025 header. -/
theorem exact_header_unchanged_witness :
    ensure_header hdrW exactW = (exactW, false) :=
  exact_header_unchanged hdrW exactW (by decide) (by decide) (by decide) (by decide)

/-- C7: discovery returns exactly the paths with the `.swift` extension, in
sorted order, and a path without the extension keeps its content untouched
by the run. -/
theorem swift_files_spec (files : List FsPath) (content : FsPath → List Char)
    (header : List Char) (p : FsPath) (hp : hasSwiftExt p = false) :
    (∀ q : FsPath, q ∈ swift_files files ↔ q ∈ files ∧ hasSwiftExt q = true) ∧
    List.Sorted pathLe (swift_files files) ∧
    runContent header files content p = content p := by
  have hmem : ∀ q : FsPath, q ∈ swift_files files ↔ q ∈ files ∧ hasSwiftExt q = true := by
    intro q
    unfold swift_files
    rw [(List.perm_insertionSort pathLe _).mem_iff]
    exact List.mem_filter
  refine ⟨hmem, ?_, ?_⟩
  · haveI : IsTotal FsPath pathLe := ⟨pathLeB_total⟩
    haveI : IsTrans FsPath pathLe := ⟨pathLeB_trans⟩
    exact List.sorted_insertionSort pathLe _
  · have hnot : p ∉ swift_files files := fun hq => by
      have h2 := (hmem p).mp hq
      rw [hp] at h2
      exact Bool.noConfusion h2.2
    unfold runContent
    rw [if_neg hnot]

/-- Witness for C7 on a three-file tree. -/
theorem swift_files_spec_witness :
    (∀ q : FsPath, q ∈ swift_files filesW ↔ q ∈ filesW ∧ hasSwiftExt q = true) ∧
    List.Sorted pathLe (swift_files filesW) ∧
    runContent hdrW filesW contentW ("a.txt".toList) = contentW ("a.txt".toList) :=
  swift_files_spec filesW contentW hdrW ("a.txt".toList) (by decide)

/-- C8: the count printed by `main` — the number of results whose `changed`
field is true — equals the number of discovered files whose content was
actually rewritten to something different. -/
theorem changed_count_spec (header : List Char) (files : List FsPath)
    (content : FsPath → List Char)
    (hstrip : strip header = header) (hnl : nl ∉ header) :
    changedCount header files content =
      ((swift_files files).filter
        (fun p => decide ((ensure_header header (content p)).1 ≠ content p))).length := by
  unfold changedCount mainResults
  exact count_changed_eq content hstrip hnl (swift_files files)

/-- Witness for C8 on the three-file tree of empty files. -/
theorem changed_count_spec_witness :
    changedCount hdrW filesW contentW =
      ((swift_files filesW).filter
        (fun p => decide ((ensure_header hdrW (contentW p)).1 ≠ contentW p))).length :=
  changed_count_spec hdrW filesW contentW (by decide) (by decide)

/-- C9: if processing some discovered file raises an I/O error while every
file before it succeeded, the run returns that error and the trace of touched
files stops at the failing file: no later file is read or written. -/
theorem io_error_aborts {E : Type} (rd : FsPath → Except E (List Char))
    (wr : FsPath → List Char → Except E Unit) (header : List Char)
    (pre post : List FsPath) (p : FsPath) (e : E)
    (hpre : ∀ q ∈ pre, ∃ b, ensure_headerE rd wr header q = Except.ok b)
    (hp : ensure_headerE rd wr header p = Except.error e) :
    runE rd wr header (pre ++ p :: post) = (Except.error e, pre ++ [p]) := by
  induction pre with
  | nil =>
    show runE rd wr header (p :: post) = (Except.error e, [p])
    unfold runE
    rw [hp]
  | cons q qs ih =>
    obtain ⟨b, hb⟩ := hpre q (List.mem_cons_self q qs)
    have ih2 := ih (fun r hr => hpre r (List.mem_cons_of_mem q hr))
    show runE rd wr header (q :: (qs ++ p :: post)) = (Except.error e, q :: (qs ++ [p]))
    unfold runE
    rw [hb, ih2]

/-- Witness for C9: a failing reader aborts a two-file run at the first file. -/
theorem io_error_aborts_witness :
    runE rdW wrW hdrW ([] ++ ("a.swift".toList) :: ["b.swift".toList]) =
      (Except.error 7, [] ++ [("a.swift".toList)]) :=
  io_error_aborts rdW wrW hdrW [] ["b.swift".toList] ("a.swift".toList) 7
    (fun q hq => absurd hq (List.not_mem_nil q)) rfl

/-- C10: for every file whose first line, trimmed, starts with the marker but
does not contain the holder name, `ensure_header` does not replace that line:
it prepends the new header and a blank line above it and reports the file as
changed, so the content now splits into the new header, a blank line, and the
original lines, the old copyright-like line first among them. -/
theorem marker_without_holder_prepends (header text l0 : List Char) (rest : List (List Char))
    (hnl : nl ∉ header)
    (hs : splitlines (stripBom text) = l0 :: rest)
    (hmark : copyrightMarker.isPrefixOf (strip l0) = true)
    (hhold : containsSub COPYRIGHT_HOLDER l0 = false) :
    ensure_header header text = (bomOf text ++ header ++ nl :: nl :: stripBom text, true) ∧
    splitlines (header ++ nl :: nl :: stripBom text) = header :: [] :: l0 :: rest := by
  have hh : isHeaderLine l0 = false := by
    unfold isHeaderLine
    rw [hhold]
    exact Bool.and_false _
  refine ⟨ensure_header_insert (hasHeader_eq_false_of hs hh), ?_⟩
  rw [splitlines_insert header (stripBom text) hnl, hs]

/-- Witness for C10 on a file bearing a foreign copyright line. -/
theorem marker_without_holder_prepends_witness :
    ensure_header hdrW otherHolderW =
      (bomOf otherHolderW ++ hdrW ++ nl :: nl :: stripBom otherHolderW, true) ∧
    splitlines (hdrW ++ nl :: nl :: stripBom otherHolderW) =
      hdrW :: [] :: "// Copyright © 2020 Someone Else".toList :: ["code".toList] :=
  marker_without_holder_prepends hdrW otherHolderW
    ("// Copyright © 2020 Someone Else".toList) ["code".toList]
    (by decide) (by decide) (by decide) (by decide)

end AddCopyright
